import Mathlib

/-!
# Verification of the SBic audio segmentation algorithm

Shallow embedding of `src/algorithms/highlevel/sbic.cpp` (Essentia's SBic
descriptor).  Conventions of the embedding:

* the C++ `Real` (float) is modelled as `ℚ` with exact arithmetic;
* the C `log` function (an external math-library call) is abstracted as an
  explicit parameter `rlog : ℚ → ℚ` threaded through every definition; all
  structural theorems are proved for every `rlog`;
* C++ `int` is modelled as `ℤ`;
* the TNT `Array2D<Real>` is modelled as a list of rows (`Matr`), row = one
  feature, `dim1` = number of features, `dim2` = number of frames (length of
  the first row; all rows of a real `Array2D` have equal length);
* each C++ loop is a structurally recursive function on an explicit fuel
  counter, returning its accumulated state when the fuel runs out.  For the
  in-function loops (`bicChangeSearch`, passes 2 and 3) the wrapper supplies
  a fuel that provably exceeds the iteration count; the fuel of the pass-1
  loop of `compute` is an explicit argument (the C++ loop can diverge for
  degenerate parameter settings);
* a `std::vector::operator[]` access out of bounds is undefined behaviour in
  the C++; runs performing one are flagged with the `RunRes.oob` marker.
-/

/-- Matrix model for `TNT::Array2D<Real>`: list of feature rows. -/
abbrev Matr : Type := List (List ℚ)

/-- Dimension `dim1()`: number of features (rows). -/
def dim1 (m : Matr) : ℤ := m.length

/-- Dimension `dim2()`: number of frames (columns); length of the first row.
A real `Array2D` is rectangular, so this is every row's length. -/
def dim2 (m : Matr) : ℤ := (m.headD []).length

/-- Rectangularity of a real `Array2D`: all rows have length `dim2`. -/
def RectWF (m : Matr) : Prop := ∀ r ∈ m, (r.length : ℤ) = dim2 m

/-- The C++ conversion `int(x)` from `Real` to `int`: truncation toward zero. -/
def cInt (q : ℚ) : ℤ := if 0 ≤ q then ⌊q⌋ else ⌈q⌉

/-- The constant `std::numeric_limits<Real>::max()`, the initial value of `dmin` in
`bicChangeSearch`; the numeral is FLT_MAX = 2^128 − 2^104. -/
def fltMax : ℚ := 340282346638528859811704183484516925440

/-- Checked reads `v[k]` for each index `k` of a `std::vector<Real>`:
`none` when any index is out of bounds (undefined behaviour in the C++). -/
def readsQ (v : List ℚ) (idxs : List ℤ) : Option (List ℚ) :=
  idxs.mapM (fun k => if 0 ≤ k ∧ k < (v.length : ℤ) then some (v.getD k.toNat 0) else none)

/-- Function `subarray(matrix, i0, i1, j0, j1)` from sbic.cpp lines 46-58: the
sub-matrix of rows `i0..i1` and columns `j0..j1`; the empty `Array2D()` when
either range is empty.  (All call sites of the algorithm use in-range,
non-negative bounds.) -/
def subarray (m : Matr) (i0 i1 j0 j1 : ℤ) : Matr :=
  if i1 - i0 + 1 < 1 ∨ j1 - j0 + 1 < 1 then []
  else ((m.drop i0.toNat).take (i1 - i0 + 1).toNat).map
        (fun r => (r.drop j0.toNat).take (j1 - j0 + 1).toNat)

/-- Function `SBic::logDet` (lines 62-110): for each feature row accumulate the sum
`mp` and sum of squares `vp` over the frames, then add
`log(diag_cov)` when `diag_cov = vp*z - mp*mp*z*z > 1e-5` (with `z = 1/dim2`)
and the floor `-5` otherwise. -/
def logDet (rlog : ℚ → ℚ) (m : Matr) : ℚ :=
  let z : ℚ := 1 / ((dim2 m : ℚ))
  let zz : ℚ := z * z
  m.foldl
    (fun logd r =>
      let mp : ℚ := r.foldl (fun a x => a + x) 0
      let vp : ℚ := r.foldl (fun a x => a + x * x) 0
      let diag_cov : ℚ := vp * z - mp * mp * zz
      logd + (if diag_cov > 1 / 100000 then rlog diag_cov else -5)) 0

/-- The BIC differential that the scan loop of `SBic::bicChangeSearch`
computes at split offset `shift` of window `m` (lines 154-165):
`0.5*(n1*s1 + n2*s2 - nFrames*s + penalty)` with `n1 = shift+1` frames in the
first half `[0..shift]` and `n2 = nFrames - n1` in `[shift+1..nFrames-1]`.
(The C++ hoists `penalty` and `s` out of the loop; `logDet` is pure so the
values coincide.) -/
def searchDifferential (rlog : ℚ → ℚ) (cpw cp : ℚ) (m : Matr) (shift : ℤ) : ℚ :=
  let nFeatures : ℤ := dim1 m
  let nFrames : ℤ := dim2 m
  let penalty : ℚ := cpw * cp * rlog ((nFrames : ℚ))
  let s : ℚ := logDet rlog m
  let n1 : ℤ := shift + 1
  let s1 : ℚ := logDet rlog (subarray m 0 (nFeatures - 1) 0 shift)
  let n2 : ℤ := nFrames - n1
  let s2 : ℚ := logDet rlog (subarray m 0 (nFeatures - 1) (shift + 1) (nFrames - 1))
  (1/2) * ((n1 : ℚ) * s1 + (n2 : ℚ) * s2 - (nFrames : ℚ) * s + penalty)

/-- The `while (shift < nFrames - inc)` scan loop of `bicChangeSearch`
(lines 154-173), fuel-recursive.  State: current `shift`, best position
`seg`, best value `dmin`, differential trace `d`.  Each step pushes the
differential and updates `(seg, dmin)` on strict improvement. -/
def bicLoop (rlog : ℚ → ℚ) (cpw cp : ℚ) (m : Matr) (inc nFrames : ℤ) :
    ℕ → ℤ → ℤ → ℚ → List ℚ → ℤ × ℚ × List ℚ
  | 0, _, seg, dmin, d => (seg, dmin, d)
  | fuel + 1, shift, seg, dmin, d =>
    if shift < nFrames - inc then
      let dBicValue := searchDifferential rlog cpw cp m shift
      if dBicValue < dmin then
        bicLoop rlog cpw cp m inc nFrames fuel (shift + inc) shift dBicValue (d ++ [dBicValue])
      else
        bicLoop rlog cpw cp m inc nFrames fuel (shift + inc) seg dmin (d ++ [dBicValue])
    else (seg, dmin, d)

/-- Function `SBic::bicChangeSearch` (lines 127-184).  Returns
`((first, d), dmin)`: `first` is the returned pair's `.first`
(absolute index `current + seg`, overridden to `0` when `dmin > 0`),
`d` the sampled differential curve, `dmin` the by-reference out-parameter.
The loop starts at `shift = inc - 1`; `dim2 m` steps of fuel suffice for any
`inc ≥ 1` (each step advances `shift` by `inc ≥ 1`). -/
def bicChangeSearch (rlog : ℚ → ℚ) (cpw cp : ℚ) (m : Matr) (inc current : ℤ) :
    (ℤ × List ℚ) × ℚ :=
  let nFrames : ℤ := dim2 m
  let r := bicLoop rlog cpw cp m inc nFrames (dim2 m).toNat (inc - 1) 0 fltMax []
  let first : ℤ := if r.2.1 > 0 then 0 else current + r.1
  ((first, r.2.2), r.2.1)

/-- Function `SBic::delta_bic` (lines 189-208): splits window `m` at the real-valued
`segPoint` into frames `[0..int(segPoint)]` and `[int(segPoint+1)..nFrames-1]`
and returns
`0.5*(segPoint*s1 + (nFrames-segPoint)*s2 - nFrames*s + cpw*cp*log nFrames)`. -/
def delta_bic (rlog : ℚ → ℚ) (cpw cp : ℚ) (m : Matr) (segPoint : ℚ) : ℚ :=
  let nFeatures : ℤ := dim1 m
  let nFrames : ℤ := dim2 m
  let s : ℚ := logDet rlog m
  let s1 : ℚ := logDet rlog (subarray m 0 (nFeatures - 1) 0 (cInt segPoint))
  let s2 : ℚ := logDet rlog (subarray m 0 (nFeatures - 1) (cInt (segPoint + 1)) (nFrames - 1))
  (1/2) * (segPoint * s1 + ((nFrames : ℚ) - segPoint) * s2 - (nFrames : ℚ) * s
            + cpw * cp * rlog ((nFrames : ℚ)))

/-- The five configuration parameters of `SBic::configure` (lines 211-217).
`inc2` is configured but never used by `compute` (it reuses `inc1`). -/
structure SBicParams where
  size1 : ℤ
  inc1 : ℤ
  size2 : ℤ
  inc2 : ℤ
  cpw : ℚ
deriving DecidableEq, Repr

deriving instance DecidableEq for Except

/-- Result of a run: normal result, or an out-of-bounds vector access
(undefined behaviour in the C++). -/
inductive RunRes (α : Type) where
  | ok (a : α) : RunRes α
  | oob : RunRes α
deriving DecidableEq, Repr

/-- Mutable state of the coarse pass (pass 1) of `SBic::compute`:
cursors `currSeg`/`endSeg`, the variables `i` and `dmin` holding the last
`bicChangeSearch` result (read by pass 2!), and the three output vectors. -/
structure P1St where
  currSeg : ℤ
  endSeg : ℤ
  i : ℤ
  dmin : ℚ
  seg : List ℚ
  segv : List ℚ
  bicv : List ℚ
deriving DecidableEq, Repr

/- One iteration of the pass-1 loop body (lines 251-296), to be run while
`endSeg < nFrames - 1`: grow/clip the window, search it, on a change point
(`i ≠ 0`) push it and restart the window after it and copy
`tmpBicValues[0..nToAdd-1]` (line 283), then, when the (possibly updated)
`endSeg` equals `nFrames - 1`, copy `tmpBicValues[j + currSeg]` for every
`j < tmpBicValues.size()` (line 294) — both copies flag out-of-bounds.
(`pass1Step` below; first its two computation helpers.) -/

/-- The window-end update of one pass-1 iteration (lines 251-255):
advance `endSeg` by `size1` and clip to the last frame. -/
def coarseEnd (P : SBicParams) (nFrames endSeg : ℤ) : ℤ :=
  if endSeg + P.size1 ≥ nFrames then nFrames - 1 else endSeg + P.size1

/-- The pass-1 window search of lines 259-263: search the window
`[currSeg, endSeg1]` of the feature matrix with step `inc1`. -/
def coarseSearch (rlog : ℚ → ℚ) (P : SBicParams) (features : Matr) (cp : ℚ)
    (currSeg endSeg1 : ℤ) : (ℤ × List ℚ) × ℚ :=
  bicChangeSearch rlog P.cpw cp (subarray features 0 (dim1 features - 1) currSeg endSeg1)
    P.inc1 currSeg

def pass1Step (rlog : ℚ → ℚ) (P : SBicParams) (features : Matr) (cp : ℚ) (st : P1St) :
    RunRes P1St :=
  let nFrames : ℤ := dim2 features
  let endSeg1 : ℤ := coarseEnd P nFrames st.endSeg
  let R := coarseSearch rlog P features cp st.currSeg endSeg1
  let i : ℤ := R.1.1
  let tmpBicValues : List ℚ := R.1.2
  let dmin : ℚ := R.2
  if i ≠ 0 then
    let prevCurrSeg : ℤ := st.currSeg
    let seg' := st.seg ++ [(i : ℚ)]
    let segv' := st.segv ++ [dmin]
    let currSeg' : ℤ := i + P.inc1
    let endSeg2 : ℤ := currSeg' - 1
    let nToAdd : ℤ := i - prevCurrSeg + 1
    match readsQ tmpBicValues ((List.range nToAdd.toNat).map (fun j => (j : ℤ))) with
    | none => .oob
    | some vs =>
      let bicv' := st.bicv ++ vs
      if endSeg2 = nFrames - 1 then
        match readsQ tmpBicValues
            ((List.range tmpBicValues.length).map (fun j => (j : ℤ) + currSeg')) with
        | none => .oob
        | some ws =>
          .ok ⟨currSeg', endSeg2, i, dmin, seg', segv', bicv' ++ ws⟩
      else .ok ⟨currSeg', endSeg2, i, dmin, seg', segv', bicv'⟩
  else
    if endSeg1 = nFrames - 1 then
      match readsQ tmpBicValues
          ((List.range tmpBicValues.length).map (fun j => (j : ℤ) + st.currSeg)) with
      | none => .oob
      | some ws =>
        .ok ⟨st.currSeg, endSeg1, i, dmin, st.seg, st.segv, st.bicv ++ ws⟩
    else .ok ⟨st.currSeg, endSeg1, i, dmin, st.seg, st.segv, st.bicv⟩

/-- The `while (endSeg < nFrames-1)` loop of pass 1 (lines 249-297),
fuel-recursive; returns the state unchanged when the fuel runs out. -/
def pass1 (rlog : ℚ → ℚ) (P : SBicParams) (features : Matr) (cp : ℚ) :
    ℕ → P1St → RunRes P1St
  | 0, st => .ok st
  | fuel + 1, st =>
    if st.endSeg < dim2 features - 1 then
      match pass1Step rlog P features cp st with
      | .oob => .oob
      | .ok st' => pass1 rlog P features cp fuel st'
    else .ok st

/- The fine pass loop of `SBic::compute` (lines 311-358), fuel-recursive.
`iStale` is the variable `i`: it was last assigned in pass 1 (line 264) and
is **never** updated here — the fine search result `bicChangeResult.first`
is discarded; only the by-reference `dmin` of the fine search is used.
(`pass2go` below; first its computation helpers.) -/

/-- The fine-pass window start (lines 313-317): re-center a window of
length `size2` on the entry, clamped to 0 on the left. -/
def fineWindowStart (P : SBicParams) (seg : List ℚ) (currIdx : ℕ) : ℤ :=
  let halfSize : ℤ := Int.tdiv P.size2 2
  let currSeg0 : ℤ := cInt (seg.getD currIdx 0 - (halfSize : ℚ))
  if currSeg0 < 0 then 0 else currSeg0

/-- The fine-pass search of one iteration (lines 319-330): clip the window
end to the matrix and re-run `bicChangeSearch` with step `inc1` (the
configured `inc2` is *not* used). -/
def fineSearch (rlog : ℚ → ℚ) (P : SBicParams) (features : Matr) (cp : ℚ)
    (seg : List ℚ) (currIdx : ℕ) : (ℤ × List ℚ) × ℚ :=
  let nFrames : ℤ := dim2 features
  let currSeg : ℤ := fineWindowStart P seg currIdx
  let endSeg : ℤ :=
    if currSeg + P.size2 - 1 ≥ nFrames then nFrames - 1 else currSeg + P.size2 - 1
  bicChangeSearch rlog P.cpw cp (subarray features 0 (dim1 features - 1) currSeg endSeg)
    P.inc1 currSeg

/-- Variable `prevSeg` of line 333. -/
def prevSegOf (seg : List ℚ) (currIdx : ℕ) : ℤ :=
  if currIdx = 0 then 0 else cInt (seg.getD (currIdx - 1) 0)

/-- Variable `nextSeg` of line 334. -/
def nextSegOf (nFrames : ℤ) (seg : List ℚ) (currIdx : ℕ) : ℤ :=
  if currIdx + 1 ≥ seg.length then nFrames - 1 else cInt (seg.getD (currIdx + 1) 0)

def pass2go (rlog : ℚ → ℚ) (P : SBicParams) (features : Matr) (cp : ℚ) (iStale : ℤ) :
    ℕ → ℕ → List ℚ → List ℚ → List ℚ × List ℚ
  | 0, _, seg, segv => (seg, segv)
  | fuel + 1, currIdx, seg, segv =>
    if currIdx < seg.length then
      let dmin : ℚ := (fineSearch rlog P features cp seg currIdx).2
      if iStale ≠ 0 then
        let prevSeg : ℤ := prevSegOf seg currIdx
        let nextSeg : ℤ := nextSegOf (dim2 features) seg currIdx
        if prevSeg ≤ iStale ∧ iStale ≤ nextSeg then
          if iStale ≠ cInt (seg.getD currIdx 0) then
            pass2go rlog P features cp iStale fuel (currIdx + 1)
              (seg.set currIdx (iStale : ℚ)) (segv.set currIdx dmin)
          else pass2go rlog P features cp iStale fuel (currIdx + 1) seg segv
        else
          pass2go rlog P features cp iStale fuel currIdx
            (seg.eraseIdx currIdx) (segv.eraseIdx currIdx)
      else pass2go rlog P features cp iStale fuel (currIdx + 1) seg segv
    else (seg, segv)

/-- Pass 2 wrapper: runs the loop from `currIdx = 0` with fuel
`2*length + 2`, which exceeds the iteration count (each iteration either
advances `currIdx` or shrinks the list). -/
def pass2 (rlog : ℚ → ℚ) (P : SBicParams) (features : Matr) (cp : ℚ) (iStale : ℤ)
    (seg segv : List ℚ) : List ℚ × List ℚ :=
  pass2go rlog P features cp iStale (2 * seg.length + 2) 0 seg segv

/- The validation loop of `SBic::compute` (lines 372-387), fuel-recursive:
walk the interior entries; delete entry `i` (and revisit the index) when
`delta_bic` over the window from the retained cursor `currSeg` to the next
entry, split at `seg[i] - seg[i-1]`, is positive; otherwise advance
`currSeg` to just past entry `i`.
(`pass3go` below; first its computation helper.) -/

/-- The validation differential of one pass-3 iteration (lines 377-379):
`delta_bic` over the window from the retained cursor `currSeg` to the next
entry, split at `seg[i] - seg[i-1]`. -/
def validDelta (rlog : ℚ → ℚ) (P : SBicParams) (features : Matr) (cp : ℚ)
    (currSeg : ℤ) (seg : List ℚ) (i : ℕ) : ℚ :=
  let nFeatures : ℤ := dim1 features
  let endSeg : ℤ := cInt (seg.getD (i + 1) 0)
  delta_bic rlog P.cpw cp (subarray features 0 (nFeatures - 1) currSeg endSeg)
    (seg.getD i 0 - seg.getD (i - 1) 0)

def pass3go (rlog : ℚ → ℚ) (P : SBicParams) (features : Matr) (cp : ℚ) :
    ℕ → ℕ → ℤ → List ℚ → List ℚ → List ℚ × List ℚ
  | 0, _, _, seg, segv => (seg, segv)
  | fuel + 1, i, currSeg, seg, segv =>
    if i + 1 < seg.length then
      if validDelta rlog P features cp currSeg seg i > 0 then
        pass3go rlog P features cp fuel i currSeg (seg.eraseIdx i) (segv.eraseIdx i)
      else pass3go rlog P features cp fuel (i + 1) (cInt (seg.getD i 0) + 1) seg segv
    else (seg, segv)

/-- Pass 3 wrapper (lines 365-388): early return for an empty segmentation,
otherwise run the loop from `i = 1`, `currSeg = 0` with sufficient fuel. -/
def pass3 (rlog : ℚ → ℚ) (P : SBicParams) (features : Matr) (cp : ℚ)
    (seg segv : List ℚ) : List ℚ × List ℚ :=
  if seg.length = 0 then (seg, segv)
  else pass3go rlog P features cp (2 * seg.length + 2) 1 0 seg segv

/-- The exception message of line 234. -/
def sbicErrorMsg : String :=
  "SBic: second dimension of features matrix is less than 2, unable to perform segmentation with less than 2 frames"

/-- Function `SBic::compute` (lines 219-389).  Result: the `Except` reports the
thrown exception; the triple is the final contents of the output vectors
(Segmentation, SegValues, BicValues), empty when the exception is thrown
before the passes run.  `fuel` bounds the pass-1 loop.  The variable `i` is
declared uninitialized in the C++ (line 227) and first assigned inside the
pass-1 loop, which runs at least once whenever `nFrames ≥ 2`; the model
initializes it (and `dmin`) to 0. -/
def compute (rlog : ℚ → ℚ) (fuel : ℕ) (features : Matr) (P : SBicParams) :
    RunRes ((Except String Unit) × (List ℚ × List ℚ × List ℚ)) :=
  let nFeatures : ℤ := dim1 features
  let nFrames : ℤ := dim2 features
  if nFrames < 2 then .ok (.error sbicErrorMsg, ([], [], []))
  else
    let cp : ℚ := 2 * (nFeatures : ℚ)
    match pass1 rlog P features cp fuel ⟨0, -1, 0, 0, [], [], []⟩ with
    | .oob => .oob
    | .ok st =>
      let p2 := pass2 rlog P features cp st.i st.seg st.segv
      let p3 := pass3 rlog P features cp p2.1 p2.2
      .ok (.ok (), (p3.1, p3.2, st.bicv))

/-! ## Specification-side definitions -/

/-- The list of split offsets scanned by the `bicChangeSearch` loop:
`inc-1, inc-1+inc, ...` while `< nFrames - inc`, bounded by the fuel. -/
def candShifts (inc nFrames : ℤ) : ℕ → ℤ → List ℤ
  | 0, _ => []
  | fuel + 1, shift =>
    if shift < nFrames - inc then shift :: candShifts inc nFrames fuel (shift + inc)
    else []

/-- Index of the first occurrence of `v` in a list (length of the list if
absent): the position of the first scan sample attaining the minimum. -/
def firstPos (v : ℚ) : List ℚ → ℕ
  | [] => 0
  | x :: xs => if x = v then 0 else firstPos v xs + 1

/-- The log-determinant estimator in the words of the specification:
for each feature row, `diagCov = sumSq/d2 - (sum/d2)^2` from the sum and the
sum of squares across the frames; the result is the sum over the rows of
`log diagCov` when `diagCov > 1e-5` and of the floor `-5` otherwise. -/
def specLogDet (rlog : ℚ → ℚ) (m : Matr) : ℚ :=
  let d2 : ℚ := ((dim2 m : ℤ) : ℚ)
  (m.map (fun r =>
    let sum : ℚ := r.sum
    let sumSq : ℚ := (r.map (fun x => x * x)).sum
    let diagCov : ℚ := sumSq / d2 - (sum / d2) ^ 2
    if diagCov > 1 / 100000 then rlog diagCov else -5)).sum

/-! ## Concrete instances used as evidence

`rlog0` is the degenerate log model `log v = 0`; wherever a theorem below
evaluates it, either the call site is multiplied by a zero weight (`cpw = 0`)
or it is applied at variance `1`, where the real `log 1 = 0` agrees.
`rlogStep` maps the small variances `≤ 1/100` that appear in the runs below
(all of order `10^-3`, real log about `-6.1`) to `-6` and the larger ones to
`1`; `rlogTiny` maps them to `-6` and `0`. -/

def rlog0 : ℚ → ℚ := fun _ => 0

def rlogStep : ℚ → ℚ := fun v => if v ≤ 1 / 100 then -6 else 1

def rlogTiny : ℚ → ℚ := fun v => if v ≤ 1 / 100 then -6 else 0

/-- Matrix with 1 feature, 4 frames: constant first half, `±1` second half. -/
def MatC1 : Matr := [[0, 0, 1, -1]]

/-- Matrix with 1 feature, 4 constant frames. -/
def MatC3 : Matr := [[0, 0, 0, 0]]

/-- Matrix with 1 feature, 7 frames: change point between the `0` and `2` blocks. -/
def FeatC4 : Matr := [[0, 0, 0, 2, 2, 2, 2]]

def ParC4 : SBicParams := ⟨5, 1, 4, 1, 0⟩

/-- Matrix with 1 feature, 8 frames: change point, then a long constant tail. -/
def FeatC9 : Matr := [[0, 0, 0, 5, 5, 5, 5, 5]]

def ParC9 : SBicParams := ⟨6, 1, 4, 1, 1⟩

/-- Matrix with 1 feature, 9 frames: constant except a slight step at frames 6..8. -/
def FeatC8 : Matr := [[2, 2, 2, 2, 2, 2, 21/10, 21/10, 21/10]]

def ParC8 : SBicParams := ⟨6, 1, 4, 1, 0⟩

/-- Invariant of the pass-1 state (for feature matrices of `nFrames`
frames): the window cursors stay well-formed and every stored change point
(and the last search result `i`) is a frame index in `[0, nFrames-1]`. -/
def P1Inv (nFrames : ℤ) (st : P1St) : Prop :=
  0 ≤ st.currSeg ∧ st.currSeg ≤ st.endSeg + 1 ∧ 0 ≤ st.i ∧ st.i ≤ nFrames - 1 ∧
    ∀ x ∈ st.seg, 0 ≤ x ∧ x ≤ ((nFrames : ℤ) : ℚ) - 1

/-! ## Helper lemmas -/

theorem cInt_intCast (k : ℤ) : cInt ((k : ℚ)) = k := by
  unfold cInt
  split
  · exact Int.floor_intCast k
  · exact Int.ceil_intCast k

theorem foldl_add_shift (g : ℚ → ℚ → ℚ) (hg : ∀ a x, g a x = a + g 0 x) :
    ∀ (r : List ℚ) (a : ℚ), r.foldl g a = a + r.foldl g 0
  | [], a => by simp
  | x :: xs, a => by
    rw [List.foldl_cons, List.foldl_cons, foldl_add_shift g hg xs (g a x),
      foldl_add_shift g hg xs (g 0 x), hg a x]
    ring

theorem foldl_add_eq_sum : ∀ (r : List ℚ) (a : ℚ), r.foldl (fun a x => a + x) a = a + r.sum
  | [], a => by simp
  | x :: xs, a => by
    rw [List.foldl_cons, List.sum_cons, foldl_add_eq_sum xs (a + x)]
    ring

theorem foldl_add_sq_eq_sum :
    ∀ (r : List ℚ) (a : ℚ), r.foldl (fun a x => a + x * x) a = a + (r.map (fun x => x * x)).sum
  | [], a => by simp
  | x :: xs, a => by
    rw [List.foldl_cons, List.map_cons, List.sum_cons, foldl_add_sq_eq_sum xs (a + x * x)]
    ring

theorem foldl_rowsum (g : List ℚ → ℚ) :
    ∀ (m : Matr) (a : ℚ), m.foldl (fun acc r => acc + g r) a = a + (m.map g).sum
  | [], a => by simp
  | r :: rs, a => by
    rw [List.foldl_cons, List.map_cons, List.sum_cons, foldl_rowsum g rs (a + g r)]
    ring

/-- Function `logDet` equals its per-row summed form from the spec. -/
theorem logDet_eq_specLogDet (rlog : ℚ → ℚ) (m : Matr) : logDet rlog m = specLogDet rlog m := by
  unfold logDet specLogDet
  rw [foldl_rowsum]
  rw [zero_add]
  congr 1
  apply List.map_congr_left
  intro r _
  rw [foldl_add_eq_sum, foldl_add_sq_eq_sum, zero_add, zero_add]
  have harith : (r.map (fun x => x * x)).sum * (1 / ((dim2 m : ℤ) : ℚ))
      - r.sum * r.sum * (1 / ((dim2 m : ℤ) : ℚ) * (1 / ((dim2 m : ℤ) : ℚ)))
      = (r.map (fun x => x * x)).sum / ((dim2 m : ℤ) : ℚ)
      - (r.sum / ((dim2 m : ℤ) : ℚ)) ^ 2 := by
    ring
  rw [harith]

/-- The differential trace accumulated by the scan loop is the map of
`searchDifferential` over the scanned shifts. -/
theorem bicLoop_trace (rlog : ℚ → ℚ) (cpw cp : ℚ) (m : Matr) (inc nFrames : ℤ) :
    ∀ (fuel : ℕ) (shift seg : ℤ) (dmin : ℚ) (d : List ℚ),
    (bicLoop rlog cpw cp m inc nFrames fuel shift seg dmin d).2.2 =
      d ++ (candShifts inc nFrames fuel shift).map (searchDifferential rlog cpw cp m) := by
  intro fuel
  induction fuel with
  | zero => intro shift seg dmin d; simp [bicLoop, candShifts]
  | succ fuel ih =>
    intro shift seg dmin d
    by_cases h : shift < nFrames - inc
    · by_cases h2 : searchDifferential rlog cpw cp m shift < dmin
      · simp only [bicLoop, if_pos h, if_pos h2, ih, candShifts, List.map_cons,
          List.append_assoc, List.singleton_append]
      · simp only [bicLoop, if_pos h, if_neg h2, ih, candShifts, List.map_cons,
          List.append_assoc, List.singleton_append]
    · simp [bicLoop, candShifts, if_neg h]

/-- The running minimum of the scan loop is the fold of `min` over the
scanned differentials. -/
theorem bicLoop_dmin (rlog : ℚ → ℚ) (cpw cp : ℚ) (m : Matr) (inc nFrames : ℤ) :
    ∀ (fuel : ℕ) (shift seg : ℤ) (dmin : ℚ) (d : List ℚ),
    (bicLoop rlog cpw cp m inc nFrames fuel shift seg dmin d).2.1 =
      ((candShifts inc nFrames fuel shift).map (searchDifferential rlog cpw cp m)).foldl min dmin := by
  intro fuel
  induction fuel with
  | zero => intro shift seg dmin d; simp [bicLoop, candShifts]
  | succ fuel ih =>
    intro shift seg dmin d
    by_cases h : shift < nFrames - inc
    · by_cases h2 : searchDifferential rlog cpw cp m shift < dmin
      · simp only [bicLoop, if_pos h, if_pos h2, ih, candShifts, List.map_cons, List.foldl_cons]
        congr 1
        exact (min_eq_right h2.le).symm
      · simp only [bicLoop, if_pos h, if_neg h2, ih, candShifts, List.map_cons, List.foldl_cons]
        congr 1
        exact (min_eq_left (not_lt.mp h2)).symm
    · simp [bicLoop, candShifts, if_neg h]

/-- First-argmin characterization of the scan loop: either no sample beat
the initial `dmin` and the pair `(seg, dmin)` is returned unchanged, or the
final `dmin` is a strict improvement and the returned position is the
scanned shift at the *first* index attaining it (strict `<` tie-break). -/
theorem bicLoop_argmin (rlog : ℚ → ℚ) (cpw cp : ℚ) (m : Matr) (inc nFrames : ℤ) :
    ∀ (fuel : ℕ) (shift seg : ℤ) (dmin : ℚ) (d : List ℚ),
    (let r := bicLoop rlog cpw cp m inc nFrames fuel shift seg dmin d
     let sh := candShifts inc nFrames fuel shift
     let vals := sh.map (searchDifferential rlog cpw cp m)
     (r.1 = seg ∧ r.2.1 = dmin ∧ ∀ v ∈ vals, dmin ≤ v) ∨
     (r.2.1 < dmin ∧ firstPos r.2.1 vals < sh.length ∧
       r.1 = sh.getD (firstPos r.2.1 vals) 0)) := by
  intro fuel
  induction fuel with
  | zero => intro shift seg dmin d; left; simp [bicLoop, candShifts]
  | succ fuel ih =>
    intro shift seg dmin d
    by_cases h : shift < nFrames - inc
    · by_cases h2 : searchDifferential rlog cpw cp m shift < dmin
      · -- update branch: continue with (shift, dBic)
        have hrec := ih (shift + inc) shift (searchDifferential rlog cpw cp m shift)
          (d ++ [searchDifferential rlog cpw cp m shift])
        simp only [bicLoop, if_pos h, if_pos h2, candShifts, List.map_cons, List.length_cons]
        rcases hrec with ⟨he1, he2, _⟩ | ⟨hl1, hl2, hl3⟩
        · right
          refine ⟨by rw [he2]; exact h2, ?_, ?_⟩
          · rw [he2, firstPos, if_pos rfl]
            omega
          · rw [he2, firstPos, if_pos rfl, List.getD_cons_zero, he1]
        · right
          have hne : searchDifferential rlog cpw cp m shift ≠
              (bicLoop rlog cpw cp m inc nFrames fuel (shift + inc) shift
                (searchDifferential rlog cpw cp m shift)
                (d ++ [searchDifferential rlog cpw cp m shift])).2.1 := by
            exact (ne_of_gt hl1)
          refine ⟨lt_trans hl1 h2, ?_, ?_⟩
          · rw [firstPos, if_neg hne]
            omega
          · rw [firstPos, if_neg hne, List.getD_cons_succ, hl3]
      · -- no update: continue with (seg, dmin)
        have hrec := ih (shift + inc) seg dmin (d ++ [searchDifferential rlog cpw cp m shift])
        simp only [bicLoop, if_pos h, if_neg h2, candShifts, List.map_cons, List.length_cons]
        rcases hrec with ⟨he1, he2, he3⟩ | ⟨hl1, hl2, hl3⟩
        · left
          refine ⟨he1, he2, ?_⟩
          intro v hv
          rcases List.mem_cons.mp hv with rfl | hv'
          · exact not_lt.mp h2
          · exact he3 v hv'
        · right
          have hne : searchDifferential rlog cpw cp m shift ≠
              (bicLoop rlog cpw cp m inc nFrames fuel (shift + inc) seg dmin
                (d ++ [searchDifferential rlog cpw cp m shift])).2.1 := by
            have : (bicLoop rlog cpw cp m inc nFrames fuel (shift + inc) seg dmin
                (d ++ [searchDifferential rlog cpw cp m shift])).2.1 < dmin := hl1
            have h3 : dmin ≤ searchDifferential rlog cpw cp m shift := not_lt.mp h2
            exact fun hEq => absurd (hEq ▸ this) (not_lt.mpr h3)
          refine ⟨hl1, ?_, ?_⟩
          · rw [firstPos, if_neg hne]
            omega
          · rw [firstPos, if_neg hne, List.getD_cons_succ, hl3]
    · left
      refine ⟨?_, ?_, ?_⟩ <;> simp [bicLoop, candShifts, if_neg h]

/-- Range of the returned position: the initial `seg`, or a scanned shift
(needs `0 ≤ inc` so the scan moves forward). -/
theorem bicLoop_seg_range (rlog : ℚ → ℚ) (cpw cp : ℚ) (m : Matr) (inc nFrames : ℤ)
    (hinc : 0 ≤ inc) :
    ∀ (fuel : ℕ) (shift seg : ℤ) (dmin : ℚ) (d : List ℚ),
    (bicLoop rlog cpw cp m inc nFrames fuel shift seg dmin d).1 = seg ∨
      (shift ≤ (bicLoop rlog cpw cp m inc nFrames fuel shift seg dmin d).1 ∧
       (bicLoop rlog cpw cp m inc nFrames fuel shift seg dmin d).1 ≤ nFrames - inc - 1) := by
  intro fuel
  induction fuel with
  | zero => intro shift seg dmin d; left; simp [bicLoop]
  | succ fuel ih =>
    intro shift seg dmin d
    by_cases h : shift < nFrames - inc
    · by_cases h2 : searchDifferential rlog cpw cp m shift < dmin
      · simp only [bicLoop, if_pos h, if_pos h2]
        rcases ih (shift + inc) shift (searchDifferential rlog cpw cp m shift)
            (d ++ [searchDifferential rlog cpw cp m shift]) with heq | ⟨hle, hub⟩
        · right; rw [heq]; omega
        · right; omega
      · simp only [bicLoop, if_pos h, if_neg h2]
        rcases ih (shift + inc) seg dmin (d ++ [searchDifferential rlog cpw cp m shift])
            with heq | ⟨hle, hub⟩
        · left; exact heq
        · right; omega
    · left; simp [bicLoop, if_neg h]

theorem cInt_intCast_add_one (k : ℤ) : cInt ((k : ℚ) + 1) = k + 1 := by
  have h : ((k : ℚ) + 1) = (((k + 1 : ℤ) : ℚ)) := by push_cast; ring
  rw [h, cInt_intCast]

/-- Claim C1 (corrected).  `delta_bic` at an integral split `k` equals the
differential computed by the `bicChangeSearch` scan at the same split of the
same window **plus** `0.5 * (logDet(secondHalf) - logDet(firstHalf))`: the
code weighs the halves by `segPoint` and `nFrames - segPoint` instead of by
their frame counts `segPoint + 1` and `nFrames - segPoint - 1`, so the two
evaluators coincide only when the two halves have equal log-determinants. -/
theorem sbic_C1_amended (rlog : ℚ → ℚ) (cpw cp : ℚ) (m : Matr) (k : ℤ) :
    delta_bic rlog cpw cp m (k : ℚ) =
      searchDifferential rlog cpw cp m k +
        (1/2) * (logDet rlog (subarray m 0 (dim1 m - 1) (k + 1) (dim2 m - 1)) -
                 logDet rlog (subarray m 0 (dim1 m - 1) 0 k)) := by
  unfold delta_bic searchDifferential
  rw [cInt_intCast, cInt_intCast_add_one]
  push_cast
  ring

/-- Claim C1 counterexample: on the window `[[0,0,1,-1]]` with split 1 and
`cpw = 0` (so the penalty and whole-window terms are weight-independent),
`delta_bic` returns `-5/2` while the search's differential at the same split
is `-5`; they are not identical as the claim states.  (`rlog0` is only
applied at variance 1 here, where the real `log` is also 0.) -/
theorem sbic_C1_counterexample :
    delta_bic rlog0 0 2 MatC1 1 ≠ searchDifferential rlog0 0 2 MatC1 1 := by
  with_unfolding_all decide

set_option maxRecDepth 10000

theorem sum_const_of_all_eq : ∀ (r : List ℚ) (c : ℚ), (∀ x ∈ r, x = c) →
    r.sum = c * (r.length : ℚ)
  | [], c, _ => by simp
  | x :: xs, c, h => by
    have hx : x = c := h x (List.mem_cons_self x xs)
    have hxs := sum_const_of_all_eq xs c (fun y hy => h y (List.mem_cons_of_mem x hy))
    rw [List.sum_cons, hx, hxs, List.length_cons]
    push_cast
    ring

theorem sum_map_of_all_neg5 {g : List ℚ → ℚ} :
    ∀ (m : Matr), (∀ r ∈ m, g r = -5) → (m.map g).sum = -5 * (m.length : ℚ)
  | [], _ => by simp
  | r :: rs, h => by
    rw [List.map_cons, List.sum_cons, h r (List.mem_cons_self r rs),
      sum_map_of_all_neg5 rs (fun y hy => h y (List.mem_cons_of_mem r hy)), List.length_cons]
    push_cast
    ring

/-- Claim C2 (confirmed).  For every rectangular sub-matrix with at least one
frame, `logDet` is the sum over the feature rows of `log diagCov` when
`diagCov = sumSq/d2 - (sum/d2)^2 > 1e-5` and of the floor `-5` otherwise
(`specLogDet`); and when all entries are identical it returns
`-5 * d1`. -/
theorem sbic_C2 (rlog : ℚ → ℚ) (m : Matr) (hwf : RectWF m) (h2 : 1 ≤ dim2 m) :
    logDet rlog m = specLogDet rlog m ∧
      ∀ c : ℚ, (∀ r ∈ m, ∀ x ∈ r, x = c) → logDet rlog m = -5 * ((dim1 m : ℤ) : ℚ) := by
  refine ⟨logDet_eq_specLogDet rlog m, ?_⟩
  intro c hc
  have hd2 : ((dim2 m : ℤ) : ℚ) ≠ 0 := by
    have h0 : (0 : ℤ) < dim2 m := h2
    exact_mod_cast h0.ne.symm
  unfold logDet
  rw [foldl_rowsum, zero_add]
  have hlen1 : ((m.length : ℕ) : ℚ) = ((dim1 m : ℤ) : ℚ) := by
    unfold dim1
    push_cast
    ring
  rw [sum_map_of_all_neg5 m ?_, hlen1]
  intro r hr
  rw [foldl_add_eq_sum, foldl_add_sq_eq_sum, zero_add, zero_add]
  have hlen : ((r.length : ℕ) : ℚ) = ((dim2 m : ℤ) : ℚ) := by
    exact_mod_cast congrArg (fun z : ℤ => (z : ℚ)) (hwf r hr)
  have hsum : r.sum = c * ((dim2 m : ℤ) : ℚ) := by
    rw [sum_const_of_all_eq r c (hc r hr), hlen]
  have hsq : (r.map (fun x => x * x)).sum = (c * c) * ((dim2 m : ℤ) : ℚ) := by
    have hall : ∀ y ∈ r.map (fun x => x * x), y = c * c := by
      intro y hy
      rcases List.mem_map.mp hy with ⟨x, hx, rfl⟩
      rw [hc r hr x hx]
    rw [sum_const_of_all_eq _ (c * c) hall, List.length_map, hlen]
  rw [hsum, hsq]
  have hzero : (c * c) * ((dim2 m : ℤ) : ℚ) * (1 / ((dim2 m : ℤ) : ℚ))
      - c * ((dim2 m : ℤ) : ℚ) * (c * ((dim2 m : ℤ) : ℚ))
        * (1 / ((dim2 m : ℤ) : ℚ) * (1 / ((dim2 m : ℤ) : ℚ))) = 0 := by
    field_simp
    ring
  rw [hzero]
  norm_num

/-- Claim C2 witness: at the constant 2×3 matrix of sevens, `logDet` under any
log model equals `specLogDet` and equals `-5 * 2`. -/
theorem sbic_C2_witness :
    logDet rlog0 [[7, 7, 7], [7, 7, 7]] = specLogDet rlog0 [[7, 7, 7], [7, 7, 7]] ∧
      logDet rlog0 [[7, 7, 7], [7, 7, 7]] = -5 * ((dim1 [[7, 7, 7], [7, 7, 7]] : ℤ) : ℚ) := by
  have h := sbic_C2 rlog0 [[7, 7, 7], [7, 7, 7]]
    (by unfold RectWF; with_unfolding_all decide) (by with_unfolding_all decide)
  exact ⟨h.1, h.2 7 (by with_unfolding_all decide)⟩

/-- Claim C3 (corrected).  Characterization of `bicChangeSearch`: the returned
curve is the map of the differential over the scanned shifts; the returned
`dmin` is their minimum (starting from `FLT_MAX`); the sentinel `0` is
returned when `dmin > 0` **strictly** (not "whenever `dmin` is not
negative": at `dmin = 0` the code returns `current + offset`); and whenever
`dmin ≤ 0` the returned index is `current +` the first scanned shift whose
differential attains `dmin` (strict `<` tie-break). -/
theorem sbic_C3_amended (rlog : ℚ → ℚ) (cpw cp : ℚ) (m : Matr) (inc current : ℤ) :
    (bicChangeSearch rlog cpw cp m inc current).1.2 =
      (candShifts inc (dim2 m) (dim2 m).toNat (inc - 1)).map
        (searchDifferential rlog cpw cp m) ∧
    (bicChangeSearch rlog cpw cp m inc current).2 =
      ((candShifts inc (dim2 m) (dim2 m).toNat (inc - 1)).map
        (searchDifferential rlog cpw cp m)).foldl min fltMax ∧
    (0 < (bicChangeSearch rlog cpw cp m inc current).2 →
      (bicChangeSearch rlog cpw cp m inc current).1.1 = 0) ∧
    ((bicChangeSearch rlog cpw cp m inc current).2 ≤ 0 →
      (bicChangeSearch rlog cpw cp m inc current).1.1 =
        current + (candShifts inc (dim2 m) (dim2 m).toNat (inc - 1)).getD
          (firstPos (bicChangeSearch rlog cpw cp m inc current).2
            ((candShifts inc (dim2 m) (dim2 m).toNat (inc - 1)).map
              (searchDifferential rlog cpw cp m))) 0) := by
  have hT := bicLoop_trace rlog cpw cp m inc (dim2 m) (dim2 m).toNat (inc - 1) 0 fltMax []
  have hD := bicLoop_dmin rlog cpw cp m inc (dim2 m) (dim2 m).toNat (inc - 1) 0 fltMax []
  have hA := bicLoop_argmin rlog cpw cp m inc (dim2 m) (dim2 m).toNat (inc - 1) 0 fltMax []
  simp only [] at hA
  refine ⟨?_, ?_, ?_, ?_⟩
  · simp only [bicChangeSearch]
    rw [hT, List.nil_append]
  · simp only [bicChangeSearch]
    exact hD
  · intro h
    simp only [bicChangeSearch] at h ⊢
    rw [if_pos h]
  · intro h
    simp only [bicChangeSearch] at h ⊢
    rw [if_neg (not_lt.mpr h)]
    congr 1
    rcases hA with ⟨_, h2, _⟩ | ⟨_, _, h3⟩
    · exfalso
      rw [h2] at h
      have : (0 : ℚ) < fltMax := by norm_num [fltMax]
      exact absurd h (not_le.mpr this)
    · exact h3

/-- Claim C3 counterexample: on the constant window `[[0,0,0,0]]` with
`cpw = 0`, `inc = 2`, `current = 5` every differential is `0`, so the best
differential `dmin = 0` is *not negative*; yet the search returns `6`
(`current + 1`), not the `0` sentinel the claim requires: the code tests
`dmin > 0`, not `dmin ≥ 0`. -/
theorem sbic_C3_counterexample :
    (bicChangeSearch rlog0 0 2 MatC3 2 5).2 = 0 ∧
      (bicChangeSearch rlog0 0 2 MatC3 2 5).1.1 = 6 := by
  with_unfolding_all decide

theorem mem_of_eraseIdx {l : List ℚ} {n : ℕ} {x : ℚ} (h : x ∈ l.eraseIdx n) : x ∈ l :=
  (List.eraseIdx_sublist l n).subset h

theorem len_eraseIdx_le (l : List ℚ) (n : ℕ) : (l.eraseIdx n).length ≤ l.length :=
  (List.eraseIdx_sublist l n).length_le

/-- Pass 2 keeps Segmentation and SegValues the same length. -/
theorem pass2go_len_eq (rlog : ℚ → ℚ) (P : SBicParams) (features : Matr) (cp : ℚ)
    (iStale : ℤ) :
    ∀ (fuel currIdx : ℕ) (seg segv : List ℚ), seg.length = segv.length →
      (pass2go rlog P features cp iStale fuel currIdx seg segv).1.length =
        (pass2go rlog P features cp iStale fuel currIdx seg segv).2.length := by
  intro fuel
  induction fuel with
  | zero => intro currIdx seg segv h; simpa [pass2go] using h
  | succ fuel ih =>
    intro currIdx seg segv h
    simp only [pass2go]
    split_ifs with h1 h2 h3 h4
    · apply ih
      simp [List.length_set, h]
    · apply ih
      exact h
    · apply ih
      rw [List.length_eraseIdx, List.length_eraseIdx, if_pos h1, if_pos (h ▸ h1)]
      omega
    · apply ih
      exact h
    · exact h

/-- Pass 2 never lengthens Segmentation. -/
theorem pass2go_len_le (rlog : ℚ → ℚ) (P : SBicParams) (features : Matr) (cp : ℚ)
    (iStale : ℤ) :
    ∀ (fuel currIdx : ℕ) (seg segv : List ℚ),
      (pass2go rlog P features cp iStale fuel currIdx seg segv).1.length ≤ seg.length := by
  intro fuel
  induction fuel with
  | zero => intro currIdx seg segv; simp [pass2go]
  | succ fuel ih =>
    intro currIdx seg segv
    simp only [pass2go]
    split_ifs with h1 h2 h3 h4
    · exact le_trans (ih _ _ _) (le_of_eq (List.length_set seg currIdx _))
    · exact ih _ _ _
    · exact le_trans (ih _ _ _) (len_eraseIdx_le seg currIdx)
    · exact ih _ _ _
    · exact le_rfl

/-- Every value in the Segmentation produced by pass 2 is either an input
value or the (cast) stale `i`. -/
theorem pass2go_range (rlog : ℚ → ℚ) (P : SBicParams) (features : Matr) (cp : ℚ)
    (iStale : ℤ) (B : ℚ) (hi0 : (0 : ℚ) ≤ (iStale : ℚ)) (hi1 : (iStale : ℚ) ≤ B) :
    ∀ (fuel currIdx : ℕ) (seg segv : List ℚ), (∀ x ∈ seg, 0 ≤ x ∧ x ≤ B) →
      ∀ x ∈ (pass2go rlog P features cp iStale fuel currIdx seg segv).1, 0 ≤ x ∧ x ≤ B := by
  intro fuel
  induction fuel with
  | zero => intro currIdx seg segv h; simpa [pass2go] using h
  | succ fuel ih =>
    intro currIdx seg segv h
    simp only [pass2go]
    split_ifs with h1 h2 h3 h4
    · apply ih
      intro x hx
      rcases List.mem_or_eq_of_mem_set hx with hx' | rfl
      · exact h x hx'
      · exact ⟨hi0, hi1⟩
    · exact ih _ _ _ h
    · apply ih
      intro x hx
      exact h x (mem_of_eraseIdx hx)
    · exact ih _ _ _ h
    · exact h

/-- Pass 3 keeps Segmentation and SegValues the same length. -/
theorem pass3go_len_eq (rlog : ℚ → ℚ) (P : SBicParams) (features : Matr) (cp : ℚ) :
    ∀ (fuel i : ℕ) (currSeg : ℤ) (seg segv : List ℚ), seg.length = segv.length →
      (pass3go rlog P features cp fuel i currSeg seg segv).1.length =
        (pass3go rlog P features cp fuel i currSeg seg segv).2.length := by
  intro fuel
  induction fuel with
  | zero => intro i currSeg seg segv h; simpa [pass3go] using h
  | succ fuel ih =>
    intro i currSeg seg segv h
    simp only [pass3go]
    split_ifs with h1 h2
    · apply ih
      rw [List.length_eraseIdx, List.length_eraseIdx, if_pos (by omega), if_pos (by omega)]
      omega
    · apply ih
      exact h
    · exact h

/-- Pass 3 never lengthens Segmentation. -/
theorem pass3go_len_le (rlog : ℚ → ℚ) (P : SBicParams) (features : Matr) (cp : ℚ) :
    ∀ (fuel i : ℕ) (currSeg : ℤ) (seg segv : List ℚ),
      (pass3go rlog P features cp fuel i currSeg seg segv).1.length ≤ seg.length := by
  intro fuel
  induction fuel with
  | zero => intro i currSeg seg segv; simp [pass3go]
  | succ fuel ih =>
    intro i currSeg seg segv
    simp only [pass3go]
    split_ifs with h1 h2
    · exact le_trans (ih _ _ _ _) (len_eraseIdx_le seg i)
    · exact ih _ _ _ _
    · exact le_rfl

/-- Pass 3 only deletes: every surviving value was an input value. -/
theorem pass3go_range (rlog : ℚ → ℚ) (P : SBicParams) (features : Matr) (cp : ℚ) (B : ℚ) :
    ∀ (fuel i : ℕ) (currSeg : ℤ) (seg segv : List ℚ), (∀ x ∈ seg, 0 ≤ x ∧ x ≤ B) →
      ∀ x ∈ (pass3go rlog P features cp fuel i currSeg seg segv).1, 0 ≤ x ∧ x ≤ B := by
  intro fuel
  induction fuel with
  | zero => intro i currSeg seg segv h; simpa [pass3go] using h
  | succ fuel ih =>
    intro i currSeg seg segv h
    simp only [pass3go]
    split_ifs with h1 h2
    · apply ih
      intro x hx
      exact h x (mem_of_eraseIdx hx)
    · exact ih _ _ _ _ h
    · exact h

theorem pass3_len_le (rlog : ℚ → ℚ) (P : SBicParams) (features : Matr) (cp : ℚ)
    (seg segv : List ℚ) : (pass3 rlog P features cp seg segv).1.length ≤ seg.length := by
  unfold pass3
  split_ifs with h
  · exact le_rfl
  · exact pass3go_len_le rlog P features cp _ 1 0 seg segv

/-- One pass-1 iteration preserves the Segmentation/SegValues length
lockstep (both branches append one element to each or neither). -/
theorem pass1Step_len_eq (rlog : ℚ → ℚ) (P : SBicParams) (features : Matr) (cp : ℚ)
    (st st' : P1St) (hst : st.seg.length = st.segv.length)
    (h : pass1Step rlog P features cp st = .ok st') :
    st'.seg.length = st'.segv.length := by
  simp only [pass1Step] at h
  repeat' split at h
  all_goals first
    | exact RunRes.noConfusion h
    | (injection h with h'; subst h'; simpa using hst)

/-- Pass 1 preserves the length lockstep. -/
theorem pass1_len_eq (rlog : ℚ → ℚ) (P : SBicParams) (features : Matr) (cp : ℚ) :
    ∀ (fuel : ℕ) (st st' : P1St), st.seg.length = st.segv.length →
      pass1 rlog P features cp fuel st = .ok st' →
      st'.seg.length = st'.segv.length := by
  intro fuel
  induction fuel with
  | zero =>
    intro st st' h hp
    simp only [pass1] at hp
    injection hp with h'
    subst h'
    exact h
  | succ fuel ih =>
    intro st st' h hp
    simp only [pass1] at hp
    split_ifs at hp with hc
    · cases hs : pass1Step rlog P features cp st with
      | oob => rw [hs] at hp; exact RunRes.noConfusion hp
      | ok st1 =>
        rw [hs] at hp
        exact ih st1 st' (pass1Step_len_eq rlog P features cp st st1 h hs) hp
    · injection hp with h'
      subst h'
      exact h

/-- Claim C5 (confirmed).  `compute` raises the invalid-input exception, with
all three output vectors untouched, exactly when the matrix has fewer than
2 frames; for any matrix with at least 2 frames that error is never
raised (whatever the parameters, the fuel, and the log model). -/
theorem sbic_C5 (rlog : ℚ → ℚ) (fuel : ℕ) (features : Matr) (P : SBicParams) :
    (dim2 features < 2 →
      compute rlog fuel features P = .ok (.error sbicErrorMsg, ([], [], []))) ∧
    (2 ≤ dim2 features →
      ∀ (e : String) (out : List ℚ × List ℚ × List ℚ),
        compute rlog fuel features P ≠ .ok (.error e, out)) := by
  constructor
  · intro h
    unfold compute
    rw [if_pos h]
  · intro h e out hEq
    simp only [compute] at hEq
    rw [if_neg (not_lt.mpr h)] at hEq
    cases hp : pass1 rlog P features (2 * ((dim1 features : ℤ) : ℚ)) fuel
        ⟨0, -1, 0, 0, [], [], []⟩ with
    | oob => rw [hp] at hEq; simp at hEq
    | ok st => rw [hp] at hEq; simp at hEq

/-- Claim C5 witness: a 1-frame matrix raises the error with empty outputs; a
2-frame matrix does not raise it. -/
theorem sbic_C5_witness :
    compute rlog0 10 [[3]] ParC4 = .ok (.error sbicErrorMsg, ([], [], [])) ∧
      compute rlog0 10 [[0, 0]] ParC4 ≠ .ok (.error sbicErrorMsg, ([], [], [])) := by
  exact ⟨(sbic_C5 rlog0 10 [[3]] ParC4).1 (by with_unfolding_all decide),
    (sbic_C5 rlog0 10 [[0, 0]] ParC4).2 (by with_unfolding_all decide) sbicErrorMsg ([], [], [])⟩

/-- Claim C6 (confirmed).  All three passes keep Segmentation and SegValues at
equal lengths: pass 1 appends to both, pass 2 replaces at the same index in
both or erases the same index from both, pass 3 erases the same index from
both; so length equality is preserved from any state with equal lengths. -/
theorem sbic_C6 (rlog : ℚ → ℚ) (P : SBicParams) (features : Matr) (cp : ℚ) :
    (∀ (fuel : ℕ) (st st' : P1St), st.seg.length = st.segv.length →
        pass1 rlog P features cp fuel st = .ok st' →
        st'.seg.length = st'.segv.length) ∧
    (∀ (iStale : ℤ) (seg segv : List ℚ), seg.length = segv.length →
        (pass2 rlog P features cp iStale seg segv).1.length =
          (pass2 rlog P features cp iStale seg segv).2.length) ∧
    (∀ (seg segv : List ℚ), seg.length = segv.length →
        (pass3 rlog P features cp seg segv).1.length =
          (pass3 rlog P features cp seg segv).2.length) := by
  refine ⟨pass1_len_eq rlog P features cp, ?_, ?_⟩
  · intro iStale seg segv h
    unfold pass2
    exact pass2go_len_eq rlog P features cp iStale _ 0 seg segv h
  · intro seg segv h
    unfold pass3
    split_ifs with h0
    · exact h
    · exact pass3go_len_eq rlog P features cp _ 1 0 seg segv h

/-- Claim C6 witness: the lockstep at the end of the concrete C4 run of pass 1
and at concrete pass-2 and pass-3 runs. -/
theorem sbic_C6_witness :
    ({currSeg := 6, endSeg := 6, i := 0, dmin := fltMax, seg := [2, 3, 4, 5],
        segv := [-25/2, 0, 0, 0],
        bicv := [-5/2, -5, -25/2, 0, 0, 0] : P1St}).seg.length =
      ({currSeg := 6, endSeg := 6, i := 0, dmin := fltMax, seg := [2, 3, 4, 5],
        segv := [-25/2, 0, 0, 0],
        bicv := [-5/2, -5, -25/2, 0, 0, 0] : P1St}).segv.length ∧
    (pass2 rlog0 ParC4 FeatC4 2 0 [2, 3, 4, 5] [1, 2, 3, 4]).1.length =
      (pass2 rlog0 ParC4 FeatC4 2 0 [2, 3, 4, 5] [1, 2, 3, 4]).2.length ∧
    (pass3 rlogTiny ParC8 FeatC8 2 [1, 3, 5, 8] [0, 0, 0, 0]).1.length =
      (pass3 rlogTiny ParC8 FeatC8 2 [1, 3, 5, 8] [0, 0, 0, 0]).2.length := by
  refine ⟨?_, ?_, ?_⟩
  · exact (sbic_C6 rlog0 ParC4 FeatC4 2).1 20 ⟨0, -1, 0, 0, [], [], []⟩ _ rfl
      (by with_unfolding_all rfl)
  · exact (sbic_C6 rlog0 ParC4 FeatC4 2).2.1 0 [2, 3, 4, 5] [1, 2, 3, 4] rfl
  · exact (sbic_C6 rlogTiny ParC8 FeatC8 2).2.2 [1, 3, 5, 8] [0, 0, 0, 0] rfl

/-- Claim C7 (confirmed).  The fine pass and the validation pass never insert:
each returns a Segmentation no longer than its input, so the count after the
fine pass is at most the coarse count, and the count after validation is at
most the fine count. -/
theorem sbic_C7 (rlog : ℚ → ℚ) (P : SBicParams) (features : Matr) (cp : ℚ)
    (iStale : ℤ) (seg segv : List ℚ) :
    (pass2 rlog P features cp iStale seg segv).1.length ≤ seg.length ∧
      (pass3 rlog P features cp seg segv).1.length ≤ seg.length := by
  constructor
  · unfold pass2
    exact pass2go_len_le rlog P features cp iStale _ 0 seg segv
  · exact pass3_len_le rlog P features cp seg segv

/-- Claim C8 (corrected).  What survives of idempotence: a second validation
run never *adds* entries — its output is no longer than its input, which is
the first run's output. -/
theorem sbic_C8_amended (rlog : ℚ → ℚ) (P : SBicParams) (features : Matr) (cp : ℚ)
    (seg segv : List ℚ) :
    (pass3 rlog P features cp (pass3 rlog P features cp seg segv).1
        (pass3 rlog P features cp seg segv).2).1.length ≤
      (pass3 rlog P features cp seg segv).1.length :=
  pass3_len_le rlog P features cp _ _

/-- Claim C8 counterexample: validation is *not* a fixed point of its own
output.  On `FeatC8` (constant 2s with a small step to 2.1 at frames 6..8,
all evaluated variances of order 10^-3, log model `rlogTiny`), validating
`[1, 3, 5, 8]` keeps entry `3` (its check uses successor `5`) and deletes
entry `5`; re-validating the output `[1, 3, 8]` now checks entry `3`
against successor `8` and deletes it too: the second run removes a further
entry. -/
theorem sbic_C8_counterexample :
    (pass3 rlogTiny ParC8 FeatC8 2
        (pass3 rlogTiny ParC8 FeatC8 2 [1, 3, 5, 8] [0, 0, 0, 0]).1
        (pass3 rlogTiny ParC8 FeatC8 2 [1, 3, 5, 8] [0, 0, 0, 0]).2).1.length <
      (pass3 rlogTiny ParC8 FeatC8 2 [1, 3, 5, 8] [0, 0, 0, 0]).1.length := by
  with_unfolding_all decide

theorem dim1_pos (m : Matr) (h : 1 ≤ dim2 m) : 1 ≤ dim1 m := by
  cases m with
  | nil => simp [dim2, List.headD] at h
  | cons r rs => simp only [dim1, List.length_cons]; omega

/-- The frame count of an in-range all-features window: `subarray` over rows
`0..dim1-1` and frames `c..e` has `dim2 = e - c + 1`. -/
theorem subarray_dim2_eq (m : Matr) (c e : ℤ) (h1 : 1 ≤ dim1 m) (h0 : 0 ≤ c)
    (hce : c ≤ e) (he : e < dim2 m) :
    dim2 (subarray m 0 (dim1 m - 1) c e) = e - c + 1 := by
  obtain ⟨r, rs, rfl⟩ : ∃ r rs, m = r :: rs := by
    cases m with
    | nil => simp [dim1] at h1
    | cons r rs => exact ⟨r, rs, rfl⟩
  have hd2 : dim2 (r :: rs) = (r.length : ℤ) := by simp [dim2]
  unfold subarray
  rw [if_neg (by unfold dim1 at h1 ⊢; push_neg; omega)]
  have hk : (dim1 (r :: rs) - 1 - 0 + 1).toNat = rs.length + 1 := by
    unfold dim1
    simp only [List.length_cons]
    omega
  rw [hk]
  simp only [Int.toNat_zero, List.drop_zero, List.take_succ_cons, List.map_cons]
  simp only [dim2, List.headD, List.length_take, List.length_drop]
  rw [hd2] at he
  omega

/-- Range of the index returned by `bicChangeSearch`: the `0` sentinel, or
an absolute frame index inside the window `[current, current + dim2 - 1]`. -/
theorem bicChangeSearch_first_range (rlog : ℚ → ℚ) (cpw cp : ℚ) (m : Matr)
    (inc current : ℤ) (hinc : 1 ≤ inc) (hd : 1 ≤ dim2 m) :
    (bicChangeSearch rlog cpw cp m inc current).1.1 = 0 ∨
      (current ≤ (bicChangeSearch rlog cpw cp m inc current).1.1 ∧
        (bicChangeSearch rlog cpw cp m inc current).1.1 ≤ current + dim2 m - 1) := by
  have hr := bicLoop_seg_range rlog cpw cp m inc (dim2 m) (by omega) (dim2 m).toNat
    (inc - 1) 0 fltMax []
  simp only [bicChangeSearch]
  by_cases hp : (bicLoop rlog cpw cp m inc (dim2 m) (dim2 m).toNat (inc - 1) 0 fltMax []).2.1 > 0
  · left
    rw [if_pos hp]
  · right
    rw [if_neg hp]
    rcases hr with h0 | ⟨hlo, hhi⟩
    · rw [h0]
      omega
    · omega

/-- One pass-1 iteration preserves `P1Inv`: the pushed index is the search
result, which lies inside the window `[currSeg, endSeg1] ⊆ [0, nFrames-1]`,
and the stored `i` is either that index or `0`. -/
theorem pass1Step_inv (rlog : ℚ → ℚ) (P : SBicParams) (features : Matr) (cp : ℚ)
    (hs1 : 1 ≤ P.size1) (hi1 : 1 ≤ P.inc1) (hnf : 2 ≤ dim2 features)
    (st st' : P1St) (hinv : P1Inv (dim2 features) st)
    (hcond : st.endSeg < dim2 features - 1)
    (h : pass1Step rlog P features cp st = .ok st') : P1Inv (dim2 features) st' := by
  obtain ⟨hc0, hce, hi0, hiN, hseg⟩ := hinv
  have hE1a : st.currSeg ≤ coarseEnd P (dim2 features) st.endSeg := by
    unfold coarseEnd; split_ifs <;> omega
  have hE1b : coarseEnd P (dim2 features) st.endSeg ≤ dim2 features - 1 := by
    unfold coarseEnd; split_ifs <;> omega
  have hwd : dim2 (subarray features 0 (dim1 features - 1) st.currSeg
      (coarseEnd P (dim2 features) st.endSeg)) =
      coarseEnd P (dim2 features) st.endSeg - st.currSeg + 1 :=
    subarray_dim2_eq features _ _ (dim1_pos features (by omega)) hc0 hE1a (by omega)
  have hfr := bicChangeSearch_first_range rlog P.cpw cp
    (subarray features 0 (dim1 features - 1) st.currSeg
      (coarseEnd P (dim2 features) st.endSeg))
    P.inc1 st.currSeg hi1 (by rw [hwd]; omega)
  rw [hwd] at hfr
  simp only [pass1Step, coarseSearch] at h
  set R := bicChangeSearch rlog P.cpw cp
    (subarray features 0 (dim1 features - 1) st.currSeg
      (coarseEnd P (dim2 features) st.endSeg)) P.inc1 st.currSeg with hRdef
  repeat' split at h
  all_goals first
    | exact RunRes.noConfusion h
    | (injection h with h2
       subst h2
       simp only [P1Inv]
       refine ⟨?_, ?_, ?_, ?_, ?_⟩ <;>
         first
           | omega
           | (intro x hx
              first
                | exact hseg x hx
                | (rcases List.mem_append.mp hx with hx' | hx'
                   · exact hseg x hx'
                   · rw [List.mem_singleton] at hx'
                     subst hx'
                     constructor
                     · have hb : (0 : ℤ) ≤ R.1.1 := by omega
                       exact_mod_cast hb
                     · have hb : R.1.1 ≤ dim2 features - 1 := by omega
                       have hb2 : ((R.1.1 : ℤ) : ℚ) ≤ ((dim2 features - 1 : ℤ) : ℚ) := by
                         exact_mod_cast hb
                       push_cast at hb2
                       exact_mod_cast hb2)))

/-- Pass 1 preserves `P1Inv` for any fuel. -/
theorem pass1_inv (rlog : ℚ → ℚ) (P : SBicParams) (features : Matr) (cp : ℚ)
    (hs1 : 1 ≤ P.size1) (hi1 : 1 ≤ P.inc1) (hnf : 2 ≤ dim2 features) :
    ∀ (fuel : ℕ) (st st' : P1St), P1Inv (dim2 features) st →
      pass1 rlog P features cp fuel st = .ok st' → P1Inv (dim2 features) st' := by
  intro fuel
  induction fuel with
  | zero =>
    intro st st' h hp
    simp only [pass1] at hp
    injection hp with h'
    subst h'
    exact h
  | succ fuel ih =>
    intro st st' h hp
    simp only [pass1] at hp
    split_ifs at hp with hc
    · cases hs : pass1Step rlog P features cp st with
      | oob => rw [hs] at hp; exact RunRes.noConfusion hp
      | ok st1 =>
        rw [hs] at hp
        exact ih st1 st' (pass1Step_inv rlog P features cp hs1 hi1 hnf st st1 h hc hs) hp
    · injection hp with h'
      subst h'
      exact h

/-- Claim C10 (confirmed).  Every value stored in Segmentation is a frame
index in `[0, nFrames - 1]`: pass 1 establishes and preserves this (along
with the cursor invariants `P1Inv`), pass 2 preserves it (its only write is
the stale `i`, itself a pass-1 search result in range), pass 3 only erases;
hence every value of the final Segmentation output of `compute` is in
range.  (Hypotheses `size1 ≥ 1`, `inc1 ≥ 1` exclude the parameter settings
on which the C++ loops do not terminate.) -/
theorem sbic_C10 (rlog : ℚ → ℚ) (P : SBicParams) (features : Matr)
    (hs1 : 1 ≤ P.size1) (hi1 : 1 ≤ P.inc1) (hnf : 2 ≤ dim2 features) :
    (∀ (cp : ℚ) (fuel : ℕ) (st st' : P1St), P1Inv (dim2 features) st →
        pass1 rlog P features cp fuel st = .ok st' → P1Inv (dim2 features) st') ∧
    (∀ (cp : ℚ) (iStale : ℤ) (seg segv : List ℚ), 0 ≤ iStale →
        iStale ≤ dim2 features - 1 →
        (∀ x ∈ seg, 0 ≤ x ∧ x ≤ ((dim2 features : ℤ) : ℚ) - 1) →
        ∀ x ∈ (pass2 rlog P features cp iStale seg segv).1,
          0 ≤ x ∧ x ≤ ((dim2 features : ℤ) : ℚ) - 1) ∧
    (∀ (cp : ℚ) (seg segv : List ℚ),
        (∀ x ∈ seg, 0 ≤ x ∧ x ≤ ((dim2 features : ℤ) : ℚ) - 1) →
        ∀ x ∈ (pass3 rlog P features cp seg segv).1,
          0 ≤ x ∧ x ≤ ((dim2 features : ℤ) : ℚ) - 1) ∧
    (∀ (fuel : ℕ) (seg segv bicv : List ℚ),
        compute rlog fuel features P = .ok (.ok (), (seg, segv, bicv)) →
        ∀ x ∈ seg, 0 ≤ x ∧ x ≤ ((dim2 features : ℤ) : ℚ) - 1) := by
  have hp2 : ∀ (cp : ℚ) (iStale : ℤ) (seg segv : List ℚ), 0 ≤ iStale →
      iStale ≤ dim2 features - 1 →
      (∀ x ∈ seg, 0 ≤ x ∧ x ≤ ((dim2 features : ℤ) : ℚ) - 1) →
      ∀ x ∈ (pass2 rlog P features cp iStale seg segv).1,
        0 ≤ x ∧ x ≤ ((dim2 features : ℤ) : ℚ) - 1 := by
    intro cp iStale seg segv h0 h1 hall
    unfold pass2
    apply pass2go_range rlog P features cp iStale _ ?_ ?_ _ 0 seg segv hall
    · exact_mod_cast h0
    · have hb : ((iStale : ℤ) : ℚ) ≤ ((dim2 features - 1 : ℤ) : ℚ) := by exact_mod_cast h1
      push_cast at hb
      exact_mod_cast hb
  have hp3 : ∀ (cp : ℚ) (seg segv : List ℚ),
      (∀ x ∈ seg, 0 ≤ x ∧ x ≤ ((dim2 features : ℤ) : ℚ) - 1) →
      ∀ x ∈ (pass3 rlog P features cp seg segv).1,
        0 ≤ x ∧ x ≤ ((dim2 features : ℤ) : ℚ) - 1 := by
    intro cp seg segv hall
    unfold pass3
    split_ifs with h0
    · exact hall
    · exact pass3go_range rlog P features cp _ _ 1 0 seg segv hall
  refine ⟨fun cp => pass1_inv rlog P features cp hs1 hi1 hnf, hp2, hp3, ?_⟩
  intro fuel seg segv bicv hEq
  simp only [compute] at hEq
  rw [if_neg (not_lt.mpr hnf)] at hEq
  cases hp : pass1 rlog P features (2 * ((dim1 features : ℤ) : ℚ)) fuel
      ⟨0, -1, 0, 0, [], [], []⟩ with
  | oob => rw [hp] at hEq; simp at hEq
  | ok st =>
    rw [hp] at hEq
    have hst : P1Inv (dim2 features) st := by
      apply pass1_inv rlog P features _ hs1 hi1 hnf fuel _ st _ hp
      refine ⟨by simp, by simp, by simp, ?_, by simp⟩
      show (0 : ℤ) ≤ dim2 features - 1
      omega
    obtain ⟨_, _, hsti0, hstiN, hstseg⟩ := hst
    simp only [RunRes.ok.injEq, Prod.mk.injEq] at hEq
    obtain ⟨_, hseg', _, _⟩ := hEq
    subst hseg'
    exact hp3 _ _ _ (hp2 _ st.i st.seg st.segv hsti0 hstiN hstseg) 

/-- Claim C10 witness: the final Segmentation `[2, 3, 5]` of the concrete
`FeatC4` run consists of frame indices of the 7-frame input. -/
theorem sbic_C10_witness :
    ((0 : ℚ) ≤ 2 ∧ (2 : ℚ) ≤ ((dim2 FeatC4 : ℤ) : ℚ) - 1) ∧
      ((0 : ℚ) ≤ 3 ∧ (3 : ℚ) ≤ ((dim2 FeatC4 : ℤ) : ℚ) - 1) ∧
      ((0 : ℚ) ≤ 5 ∧ (5 : ℚ) ≤ ((dim2 FeatC4 : ℤ) : ℚ) - 1) := by
  have h := (sbic_C10 rlog0 ParC4 FeatC4 (by with_unfolding_all decide)
      (by with_unfolding_all decide) (by with_unfolding_all decide)).2.2.2
    20 [2, 3, 5] [-25/2, 0, 0] [-5/2, -5, -25/2, 0, 0, 0] (by with_unfolding_all rfl)
  exact ⟨h 2 (by simp), h 3 (by simp), h 5 (by simp)⟩

/-- Claim C4 (code bug) — the stale-`i` defect at a concrete input.
On `FeatC4 = [[0,0,0,2,2,2,2]]` with `size1 = 5`, `inc1 = 1`, `size2 = 4`,
`cpw = 0`: (a) pass 1 ends having stored `[2, 3, 4, 5]` while its last
search found nothing, leaving the variable `i = 0`; (b) the fine-pass
search of iteration `currIdx = 1` (the same-iteration result the claim
requires the decision to use) finds change point `2` with `dmin = -10`,
(c) `2` lies within `[prevSeg, nextSeg] = [2, 4]` and differs from the
current entry `3`, so per the claim the entry must be replaced by `2`;
(d) yet the code's fine pass, testing the stale `i = 0`, neither refines
nor removes anything. -/
theorem sbic_C4_divergence :
    pass1 rlog0 ParC4 FeatC4 2 20 ⟨0, -1, 0, 0, [], [], []⟩ =
      .ok ⟨6, 6, 0, fltMax, [2, 3, 4, 5], [-25/2, 0, 0, 0],
        [-5/2, -5, -25/2, 0, 0, 0]⟩ ∧
    (fineSearch rlog0 ParC4 FeatC4 2 [2, 3, 4, 5] 1).1.1 = 2 ∧
    (fineSearch rlog0 ParC4 FeatC4 2 [2, 3, 4, 5] 1).2 = -10 ∧
    prevSegOf [2, 3, 4, 5] 1 = 2 ∧
    nextSegOf (dim2 FeatC4) [2, 3, 4, 5] 1 = 4 ∧
    pass2 rlog0 ParC4 FeatC4 2 0 [2, 3, 4, 5] [-25/2, 0, 0, 0] =
      ([2, 3, 4, 5], [-25/2, 0, 0, 0]) := by
  refine ⟨by with_unfolding_all rfl, by with_unfolding_all rfl, by with_unfolding_all rfl,
    by with_unfolding_all rfl, by with_unfolding_all rfl, by with_unfolding_all rfl⟩

/-- Claim C9 (code bug) — the tail copy
`bicValues.push_back(tmpBicValues[j + currSeg])` of line 294 indexes the
sample vector by the absolute frame offset `currSeg`.  On
`FeatC9 = [[0,0,0,5,5,5,5,5]]` with `size1 = 6`, `inc1 = 1`, `cpw = 1` and
the step log model, pass 1 finds change point `2` (restarting at
`currSeg = 3`), and the final window `[3, 7]` reaches the matrix end with a
4-sample curve and no further change point; the code then reads
`tmpBicValues[3..6]`, past the end of the 4-element vector: the run is
flagged out of bounds instead of appending the window's remaining samples. -/
theorem sbic_C9_oob :
    compute rlogStep 20 FeatC9 ParC9 = .oob ∧
      pass1 rlogStep ParC9 FeatC9 2 20 ⟨0, -1, 0, 0, [], [], []⟩ = .oob := by
  refine ⟨by with_unfolding_all rfl, by with_unfolding_all rfl⟩
